import Mathlib

/-!
# Verification of the Website-Resolution-Tester crawler

A shallow embedding of `src/index.js`: a breadth-first crawler that visits
every in-domain page reachable from a seed URL and captures full-page
screenshots at a configured list of viewport resolutions.

The external browser engine (navigation, the DOM anchor list and the WHATWG
URL resolver) and the filesystem are out of scope of the repository's code;
they are modelled as an abstract `Browser` structure of total functions, and
screenshot writes are recorded as the file paths the code computes.

Embedded functions keep the source's names:
* `getLinksFromPage`  — the link extractor (`src/index.js` lines 64–103),
  split into the per-anchor admission decision `admitHref`;
* `captureScreenshotsForPage` — the per-page capture loop and path builder
  (`src/index.js` lines 29–56);
* `crawlStep` / `crawlRun` — one iteration, resp. the fuel-indexed iteration,
  of the `while (queue.length > 0)` loop of `captureScreenshotsForAllPages`
  (`src/index.js` lines 112–174).
-/

/-- Predicate `charsStart hay needle`: the character list `hay` starts with `needle`. -/
def charsStart : List Char → List Char → Bool
  | _, [] => true
  | [], _ :: _ => false
  | a :: hay, b :: needle => a = b && charsStart hay needle

/-- Predicate `charsHas hay needle`: `needle` occurs as a contiguous run inside `hay`. -/
def charsHas : List Char → List Char → Bool
  | [], needle => needle.isEmpty
  | a :: hay, needle => charsStart (a :: hay) needle || charsHas hay needle

/-- JavaScript's `String.prototype.includes`: substring containment. -/
def strContains (s pat : String) : Bool :=
  charsHas s.data pat.data

/-- JavaScript's `String.prototype.startsWith`. -/
def strStart (s pre : String) : Bool :=
  charsStart s.data pre.data

/-- JavaScript's `String.prototype.split` with a one-character separator:
the (non-empty) list of chunks between occurrences of `sep`. -/
def splitOnChar (sep : Char) : List Char → List (List Char)
  | [] => [[]]
  | c :: rest =>
    if c = sep then [] :: splitOnChar sep rest
    else
      match splitOnChar sep rest with
      | [] => [[c]]
      | seg :: segs => (c :: seg) :: segs

/-- The external browser engine, consumed as an opaque capability
(the spec's §1 "OUT OF SCOPE" collaborator).  `resolve base href` is
`new URL(href, base).href` and `hostnameOf u` is `new URL(u).hostname`;
`anchors u` is the document-order list of raw `getAttribute('href')`
values (`none` when the attribute is absent) on the page at `u`;
`navOk u` tells whether `page.goto(u)` succeeds within its timeout. -/
structure Browser where
  navOk : String → Bool
  anchors : String → List (Option String)
  resolve : String → String → String
  hostnameOf : String → String

/-- The static configuration of `src/index.js` lines 176–179: seed URL,
domain for exact-hostname filtering, the ordered resolution strings, and
the output root (`__dirname`). -/
structure Config where
  url : String
  domain : String
  resolutions : List String
  rootDir : String

/-- The per-anchor admission decision of `getLinksFromPage`
(`src/index.js` lines 74–97): reject a missing or empty href, reject an
href containing `mailto:`, `tel:`, `javascript:` or `#` anywhere, reject
an href whose resolved hostname differs from `domain`; otherwise return
the resolved URL when the href lacks `://`, and the raw href verbatim
otherwise. -/
def admitHref (b : Browser) (pageUrl domain : String) (href : Option String) :
    Option String :=
  match href with
  | none => none
  | some h =>
    if h = "" then none
    else if ["mailto:", "tel:", "javascript:", "#"].any (fun w => strContains h w) then none
    else if b.hostnameOf (b.resolve pageUrl h) ≠ domain then none
    else if strContains h "://" = false then some (b.resolve pageUrl h)
    else some h

/-- Function `getLinksFromPage` (`src/index.js` lines 64–103): the in-document-order
list of URLs admitted from the anchors of the page at `pageUrl`. -/
def getLinksFromPage (b : Browser) (pageUrl domain : String) : List String :=
  (b.anchors pageUrl).filterMap (admitHref b pageUrl domain)

/-- The segment list `url.split('/').filter(segment => segment && segment !== 'https:')`
(`src/index.js` line 34). -/
def urlSegments (url : String) : List String :=
  ((splitOnChar '/' url.data).map (fun l => String.mk l)).filter
    (fun s => s ≠ "" && s ≠ "https:")

/-- A character matched by the sanitising regex `/[<>:"\/\\|?*\x00-\x1F]/g`
(`src/index.js` line 36). -/
def illegalPathChar (c : Char) : Bool :=
  c = '<' || c = '>' || c = ':' || c = '"' || c = '/' || c = '\\' ||
    c = '|' || c = '?' || c = '*' || c.toNat ≤ 0x1F

/-- The sanitiser `segment.replace(regex, '')` (`src/index.js` line 37): remove every
character the regex matches. -/
def sanitizeSegment (s : String) : String :=
  String.mk (s.data.filter (fun c => !illegalPathChar c))

/-- Joins path segments with `/` (plain interposition, no dropping and no
normalisation). -/
def joinSegs : List String → String
  | [] => ""
  | [s] => s
  | s :: rest => s ++ "/" ++ joinSegs rest

/-- The chunks of a path string between `/` separators. -/
def splitParts (s : String) : List String :=
  (splitOnChar '/' s.data).map (fun l => String.mk l)

/-- The segment pass of Node's `path.normalize`: empty and `.` segments
are dropped and `..` is resolved against the output stack `acc` (held
reversed); a `..` that would climb above the start is kept for relative
paths and dropped for absolute ones. -/
def normSegs (isAbs : Bool) : List String → List String → List String
  | acc, [] => acc.reverse
  | acc, seg :: rest =>
    if seg = "" || seg = "." then normSegs isAbs acc rest
    else if seg = ".." then
      match acc with
      | [] => if isAbs then normSegs isAbs [] rest else normSegs isAbs [".."] rest
      | top :: acc2 =>
        if top = ".." then normSegs isAbs (".." :: top :: acc2) rest
        else normSegs isAbs acc2 rest
    else normSegs isAbs (seg :: acc) rest

/-- Node's POSIX `path.normalize` on a non-empty path string: the segment
pass `normSegs` collapses repeated `/`, drops `.` segments and resolves
`..` segments, while a leading slash and a trailing slash of the input
are preserved; a path that normalises away entirely becomes `/`, `./` or
`.`. -/
def normalizeParts (joined : String) : String :=
  match normSegs (charsStart joined.data ['/']) [] (splitParts joined) with
  | [] =>
    if charsStart joined.data ['/'] then "/"
    else if charsStart joined.data.reverse ['/'] then "./" else "."
  | n :: ns =>
    (if charsStart joined.data ['/'] then "/" else "") ++ joinSegs (n :: ns) ++
      (if charsStart joined.data.reverse ['/'] then "/" else "")

/-- Node's POSIX `path.join` (`src/index.js` lines 38 and 49): zero-length
parts are ignored, the remaining parts are joined with `/`, and the result
is normalised; an all-empty join yields `.`. -/
def pathJoin (parts : List String) : String :=
  match parts.filter (fun p => p ≠ "") with
  | [] => "."
  | k :: ks => normalizeParts (joinSegs (k :: ks))

/-- A path segment that Node's normalisation passes through untouched:
non-empty, not `.` or `..`, and free of `/`. -/
def cleanSeg (s : String) : Bool :=
  s ≠ "" && s ≠ "." && s ≠ ".." && !s.data.contains '/'

/-- A normalised absolute directory string: starts with `/`, does not end
with `/`, and every segment after the leading slash is clean. -/
def cleanAbsDir (d : String) : Bool :=
  charsStart d.data ['/'] && ((splitParts d).drop 1).all cleanSeg &&
    !charsStart d.data.reverse ['/']

/-- The output directory of `captureScreenshotsForPage`
(`src/index.js` lines 33–38): `rootDir/images/<hostname>/<safeSegments...>`.
`none` models the TypeError Node raises when the URL yields no segments
(`segments[0]` is `undefined`). -/
def pageDirectory (rootDir url : String) : Option String :=
  match urlSegments url with
  | [] => none
  | hostname :: restSegs =>
    some (pathJoin (rootDir :: "images" :: hostname :: restSegs.map sanitizeSegment))

/-- The full path of one screenshot file, `path.join(directory,
`` `${resolution}.png` ``)` (`src/index.js` line 49). -/
def screenshotFilename (rootDir url resolution : String) : Option String :=
  (pageDirectory rootDir url).map (fun d => pathJoin [d, resolution ++ ".png"])

/-- The capture loop of `captureScreenshotsForPage` (`src/index.js`
lines 44–53): one file write per configured resolution, sequentially, in
configured order; returns the ordered list of written file paths. -/
def captureScreenshotsForPage (rootDir url : String) (resolutions : List String) :
    List String :=
  resolutions.foldl
    (fun written resolution =>
      written ++ [(screenshotFilename rootDir url resolution).getD ""]) []

/-- One observable outcome of a loop iteration of
`captureScreenshotsForAllPages`: a dequeued URL was discarded as already
visited, or its navigation failed, or it was fully processed (screenshots
captured, then `links` extracted). -/
inductive Event where
  | skipped : String → Event
  | navFailed : String → Event
  | processed : String → List String → Event
deriving DecidableEq, Repr

/-- The mutable state of the crawl loop: the frontier `queue`, the
`visited` set (modelled as the list of insertions) and the trace of
iteration outcomes. -/
structure CrawlState where
  queue : List String
  visited : List String
  events : List Event
deriving DecidableEq, Repr

/-- The enqueue guard of `src/index.js` line 163:
`!visited.has(link) && link.startsWith(url)`. -/
def admitLink (cfg : Config) (visited : List String) (l : String) : Bool :=
  !visited.contains l && strStart l cfg.url

/-- One iteration of the `while (queue.length > 0)` loop
(`src/index.js` lines 124–171): dequeue the head; discard it if visited;
otherwise mark it visited, attempt navigation (on failure record it and
continue), else capture screenshots, extract links and append the admitted
ones at the tail of the queue. -/
def crawlStep (b : Browser) (cfg : Config) (s : CrawlState) : CrawlState :=
  match s.queue with
  | [] => s
  | currentUrl :: rest =>
    if s.visited.contains currentUrl then
      { s with queue := rest, events := s.events ++ [Event.skipped currentUrl] }
    else
      let visited' := currentUrl :: s.visited
      if b.navOk currentUrl = false then
        { queue := rest, visited := visited',
          events := s.events ++ [Event.navFailed currentUrl] }
      else
        let links := getLinksFromPage b currentUrl cfg.domain
        let newLinks := links.filter (admitLink cfg visited')
        { queue := rest ++ newLinks,
          visited := visited',
          events := s.events ++ [Event.processed currentUrl links] }

/-- Runs `fuel` iterations of the crawl loop (the loop exits when the queue is
empty: `crawlStep` is then the identity). -/
def crawlRun (b : Browser) (cfg : Config) : Nat → CrawlState → CrawlState
  | 0, s => s
  | fuel + 1, s => crawlRun b cfg fuel (crawlStep b cfg s)

/-- The initial state of `captureScreenshotsForAllPages`
(`src/index.js` lines 119–120): the queue holds exactly the seed, nothing
is visited, nothing has happened. -/
def crawlInit (cfg : Config) : CrawlState :=
  { queue := [cfg.url], visited := [], events := [] }

/-- Spec §4.1's description of an illegal raw href: empty or missing, or
containing one of the substrings `mailto:`, `tel:`, `javascript:`, `#`
anywhere in the string.  Stated from the spec's words, to be compared with
the guard inside `admitHref`. -/
def illegalHref : Option String → Bool
  | none => true
  | some h =>
    h = "" || strContains h "mailto:" || strContains h "tel:" ||
      strContains h "javascript:" || strContains h "#"

/-- Spec §4.2's description of the output path, stated from the spec's
words for comparison with `screenshotFilename`: split the URL on `/`,
discard empty segments and a literal `https:` segment, take the first
remaining segment as hostname, strip from each later segment the
characters `< > : " / \ | ? *` and the control characters 0x00–0x1F, and
join `rootDir/images/<hostname>/<sanitized...>/{width}x{height}.png`. -/
def specOutputPath (rootDir url : String) (width height : Nat) : Option String :=
  match ((splitOnChar '/' url.data).map (fun l => String.mk l)).filter
      (fun s => ¬(s = "" ∨ s = "https:")) with
  | [] => none
  | hostname :: restSegs =>
    some (String.intercalate "/" ([rootDir, "images", hostname] ++
        restSegs.map (fun seg => String.mk (seg.data.filter (fun c =>
          ¬(c ∈ ['<', '>', ':', '"', '/', '\\', '|', '?', '*'] ∨
            c.toNat ≤ 0x1F))))) ++
      "/" ++ toString width ++ "x" ++ toString height ++ ".png")

/-- The characters before the first `://` marker. -/
def beforeSchemeMarker : List Char → List Char
  | [] => []
  | ':' :: '/' :: '/' :: _ => []
  | c :: rest => c :: beforeSchemeMarker rest

/-- The characters after the first `://` marker. -/
def afterSchemeMarker : List Char → List Char
  | [] => []
  | ':' :: '/' :: '/' :: rest => rest
  | _ :: rest => afterSchemeMarker rest

/-- The characters before the first `/`. -/
def upToSlash : List Char → List Char
  | [] => []
  | '/' :: _ => []
  | c :: rest => c :: upToSlash rest

/-- Everything up to and including the last `/` (the "directory part"). -/
def dropAfterLastSlash (l : List Char) : List Char :=
  (l.reverse.dropWhile (fun c => c ≠ '/')).reverse

/-- Modelled from the spec: the rendering engine's WHATWG URL resolution
(`new URL(u).hostname`), an out-of-scope external capability (§1, §6).
The hostname of an absolute URL is the part between `://` and the next
`/`. -/
def modelHostname (u : String) : String :=
  if strContains u "://" then
    String.mk (upToSlash (afterSchemeMarker u.data))
  else ""

/-- Modelled from the spec: the origin `scheme://host` of an absolute
URL. -/
def modelOrigin (base : String) : String :=
  String.mk (beforeSchemeMarker base.data) ++ "://" ++
    String.mk (upToSlash (afterSchemeMarker base.data))

/-- Modelled from the spec: the rendering engine's WHATWG URL resolution
(`new URL(href, base).href`), an out-of-scope external capability (§1,
§6).  An absolute href is normalised so that its serialisation always has
a path (`https://h` serialises as `https://h/`); a root-relative href is
resolved against the base's origin; any other href is resolved against
the base's directory. -/
def modelResolve (base href : String) : String :=
  if strContains href "://" then
    if charsHas (afterSchemeMarker href.data) ['/'] then href else href ++ "/"
  else if charsStart href.data ['/'] then
    modelOrigin base ++ href
  else
    String.mk (dropAfterLastSlash base.data) ++ href

/-- A concrete browser for evaluating the crawl on closed inputs: URL
resolution follows `modelResolve`, navigation succeeds except on the URLs
in `badUrls`, and the anchor lists are given by the association list
`pages` (a page absent from `pages` has no anchors). -/
def modelBrowser (badUrls : List String)
    (pages : List (String × List (Option String))) : Browser where
  navOk u := !badUrls.contains u
  anchors u := ((pages.find? (fun p => p.1 = u)).map Prod.snd).getD []
  resolve := modelResolve
  hostnameOf := modelHostname

/-- Whether an event records full processing (screenshot capture and link
extraction) of the URL `u`. -/
def isProcessingOf (u : String) : Event → Bool
  | Event.processed v _ => v = u
  | _ => false

/-- How many loop iterations of the trace fully processed `u` (captured its
screenshots and extracted its links). -/
def processedCount (events : List Event) (u : String) : Nat :=
  (events.filter (isProcessingOf u)).length

/-- The dedup invariant: a URL has been fully processed at most once, and
only if it is in the visited set. -/
def ProcBound (s : CrawlState) : Prop :=
  ∀ u, processedCount s.events u ≤ if u ∈ s.visited then 1 else 0

/-- The fuel one unvisited URL can feed the crawl: its own iteration plus
one enqueue per link its page yields. -/
def linkWeight (b : Browser) (cfg : Config) (u : String) : Nat :=
  1 + (getLinksFromPage b u cfg.domain).length

/-- Total remaining fuel of the not-yet-visited part of the URL universe
`U`. -/
def unvisitedWeight (b : Browser) (cfg : Config) (U : Finset String)
    (visited : List String) : Nat :=
  ∑ u ∈ U.filter (fun w => w ∉ visited), linkWeight b cfg u

/-- The termination measure: queue length plus remaining fuel.  Every loop
iteration on a non-empty queue strictly decreases it. -/
def crawlPotential (b : Browser) (cfg : Config) (U : Finset String)
    (s : CrawlState) : Nat :=
  s.queue.length + unvisitedWeight b cfg U s.visited

/-- A concrete configuration: seed `https://example.com/`, domain
`example.com`, two resolutions. -/
def exConfig : Config :=
  { url := "https://example.com/", domain := "example.com",
    resolutions := ["800x600", "1024x768"], rootDir := "/root" }

/-- A site whose seed page carries two anchors to the same sub-page `/a`
(plus an illegal and a foreign anchor); `/a` has no anchors. -/
def exBrowser : Browser :=
  modelBrowser []
    [("https://example.com/",
      [some "/a", some "/a", some "mailto:x@y.com", some "https://other.com/x"])]

/-- A site with no anchors anywhere. -/
def emptyBrowser : Browser := modelBrowser [] []

/-- A site where navigating to `/a` fails (e.g. it triggers a download). -/
def failBrowser : Browser :=
  modelBrowser ["https://example.com/a"] [("https://example.com/", [some "/a"])]

/-! ### Shape of one loop iteration -/

lemma crawlStep_of_queue_nil (b : Browser) (cfg : Config) (s : CrawlState)
    (h : s.queue = []) : crawlStep b cfg s = s := by
  unfold crawlStep
  rw [h]

lemma crawlStep_of_visited (b : Browser) (cfg : Config) (s : CrawlState)
    (u : String) (rest : List String) (h : s.queue = u :: rest)
    (hv : s.visited.contains u = true) :
    crawlStep b cfg s =
      { s with queue := rest, events := s.events ++ [Event.skipped u] } := by
  have hv' : u ∈ s.visited := by simpa using hv
  unfold crawlStep
  rw [h]
  simp [hv']

lemma crawlStep_of_navFail (b : Browser) (cfg : Config) (s : CrawlState)
    (u : String) (rest : List String) (h : s.queue = u :: rest)
    (hv : s.visited.contains u = false) (hn : b.navOk u = false) :
    crawlStep b cfg s =
      { queue := rest, visited := u :: s.visited,
        events := s.events ++ [Event.navFailed u] } := by
  have hv' : u ∉ s.visited := by simpa using hv
  unfold crawlStep
  rw [h]
  simp [hv', hn]

lemma crawlStep_of_processed (b : Browser) (cfg : Config) (s : CrawlState)
    (u : String) (rest : List String) (h : s.queue = u :: rest)
    (hv : s.visited.contains u = false) (hn : b.navOk u = true) :
    crawlStep b cfg s =
      { queue :=
          rest ++ (getLinksFromPage b u cfg.domain).filter
            (admitLink cfg (u :: s.visited)),
        visited := u :: s.visited,
        events := s.events ++
          [Event.processed u (getLinksFromPage b u cfg.domain)] } := by
  have hv' : u ∉ s.visited := by simpa using hv
  unfold crawlStep
  rw [h]
  simp [hv', hn]

/-! ### Counting processed iterations -/

lemma processedCount_append (es fs : List Event) (u : String) :
    processedCount (es ++ fs) u = processedCount es u + processedCount fs u := by
  simp [processedCount, List.filter_append]

lemma processedCount_skipped (v u : String) :
    processedCount [Event.skipped v] u = 0 := by
  simp [processedCount, List.filter, isProcessingOf]

lemma processedCount_navFailed (v u : String) :
    processedCount [Event.navFailed v] u = 0 := by
  simp [processedCount, List.filter, isProcessingOf]

lemma processedCount_processed (v u : String) (links : List String) :
    processedCount [Event.processed v links] u = if v = u then 1 else 0 := by
  by_cases h : v = u <;> simp [processedCount, List.filter, isProcessingOf, h]

lemma procBound_crawlStep (b : Browser) (cfg : Config) {s : CrawlState}
    (h : ProcBound s) : ProcBound (crawlStep b cfg s) := by
  cases hq : s.queue with
  | nil => rw [crawlStep_of_queue_nil b cfg s hq]; exact h
  | cons u rest =>
    by_cases hv : s.visited.contains u = true
    · rw [crawlStep_of_visited b cfg s u rest hq hv]
      intro w
      simpa [processedCount_append, processedCount_skipped] using h w
    · rw [Bool.not_eq_true] at hv
      have hv' : u ∉ s.visited := by simpa using hv
      cases hn : b.navOk u with
      | false =>
        rw [crawlStep_of_navFail b cfg s u rest hq hv hn]
        intro w
        simp only [processedCount_append, processedCount_navFailed, Nat.add_zero]
        refine le_trans (h w) ?_
        by_cases hw : w ∈ s.visited
        · simp [List.mem_cons, hw]
        · simp [hw]
      | true =>
        rw [crawlStep_of_processed b cfg s u rest hq hv hn]
        intro w
        simp only [processedCount_append, processedCount_processed]
        by_cases hw : w = u
        · subst hw
          have h0 : processedCount s.events w = 0 := by
            simpa [hv'] using h w
          simp [h0]
        · rw [if_neg (fun hh : u = w => hw hh.symm)]
          simp only [Nat.add_zero]
          refine le_trans (h w) ?_
          by_cases hwv : w ∈ s.visited
          · simp [List.mem_cons, hwv]
          · simp [hwv]

lemma procBound_crawlRun (b : Browser) (cfg : Config) (n : Nat) :
    ∀ s : CrawlState, ProcBound s → ProcBound (crawlRun b cfg n s) := by
  induction n with
  | zero => intro s h; exact h
  | succ n ih => intro s h; exact ih _ (procBound_crawlStep b cfg h)

lemma procBound_crawlInit (cfg : Config) : ProcBound (crawlInit cfg) := by
  intro u
  simp [crawlInit, processedCount]

/-! ### The visited set only grows -/

lemma visited_subset_crawlStep (b : Browser) (cfg : Config) (s : CrawlState)
    (u : String) (hu : u ∈ s.visited) : u ∈ (crawlStep b cfg s).visited := by
  cases hq : s.queue with
  | nil => rw [crawlStep_of_queue_nil b cfg s hq]; exact hu
  | cons v rest =>
    by_cases hv : s.visited.contains v = true
    · rw [crawlStep_of_visited b cfg s v rest hq hv]; exact hu
    · rw [Bool.not_eq_true] at hv
      cases hn : b.navOk v with
      | false =>
        rw [crawlStep_of_navFail b cfg s v rest hq hv hn]
        exact List.mem_cons_of_mem _ hu
      | true =>
        rw [crawlStep_of_processed b cfg s v rest hq hv hn]
        exact List.mem_cons_of_mem _ hu

lemma visited_subset_crawlRun (b : Browser) (cfg : Config) (n : Nat) :
    ∀ (s : CrawlState) (u : String), u ∈ s.visited →
      u ∈ (crawlRun b cfg n s).visited := by
  induction n with
  | zero => intro s u hu; exact hu
  | succ n ih =>
    intro s u hu
    exact ih _ u (visited_subset_crawlStep b cfg s u hu)

/-- Once a URL is in the visited set, later iterations never process it
again: its processed-count is frozen. -/
lemma processedCount_crawlStep_of_visited (b : Browser) (cfg : Config)
    (s : CrawlState) (u : String) (hu : u ∈ s.visited) :
    processedCount (crawlStep b cfg s).events u = processedCount s.events u := by
  cases hq : s.queue with
  | nil => rw [crawlStep_of_queue_nil b cfg s hq]
  | cons v rest =>
    by_cases hv : s.visited.contains v = true
    · rw [crawlStep_of_visited b cfg s v rest hq hv]
      simp [processedCount_append, processedCount_skipped]
    · rw [Bool.not_eq_true] at hv
      have hv' : v ∉ s.visited := by simpa using hv
      cases hn : b.navOk v with
      | false =>
        rw [crawlStep_of_navFail b cfg s v rest hq hv hn]
        simp [processedCount_append, processedCount_navFailed]
      | true =>
        rw [crawlStep_of_processed b cfg s v rest hq hv hn]
        have hvu : v ≠ u := fun hh => hv' (hh ▸ hu)
        simp [processedCount_append, processedCount_processed, hvu]

lemma processedCount_crawlRun_of_visited (b : Browser) (cfg : Config) (n : Nat) :
    ∀ (s : CrawlState) (u : String), u ∈ s.visited →
      processedCount (crawlRun b cfg n s).events u = processedCount s.events u := by
  induction n with
  | zero => intro s u _; rfl
  | succ n ih =>
    intro s u hu
    show processedCount (crawlRun b cfg n (crawlStep b cfg s)).events u = _
    rw [ih _ u (visited_subset_crawlStep b cfg s u hu),
      processedCount_crawlStep_of_visited b cfg s u hu]

/-! ### Termination potential -/

lemma filter_unvisited_cons (U : Finset String) (v : List String) (u : String) :
    U.filter (fun w => w ∉ u :: v) = (U.filter (fun w => w ∉ v)).erase u := by
  ext w
  simp only [Finset.mem_filter, Finset.mem_erase, List.mem_cons, not_or]
  tauto

lemma unvisitedWeight_insert (b : Browser) (cfg : Config) (U : Finset String)
    (v : List String) (u : String) (hu : u ∈ U) (hv : u ∉ v) :
    unvisitedWeight b cfg U v =
      linkWeight b cfg u + unvisitedWeight b cfg U (u :: v) := by
  rw [unvisitedWeight, unvisitedWeight, filter_unvisited_cons]
  have hmem : u ∈ U.filter (fun w => w ∉ v) := by
    simp [Finset.mem_filter, hu, hv]
  exact (Finset.add_sum_erase _ _ hmem).symm

lemma crawlPotential_crawlStep_lt (b : Browser) (cfg : Config)
    (U : Finset String) (s : CrawlState) (hq : ∀ x ∈ s.queue, x ∈ U)
    (hne : s.queue ≠ []) :
    crawlPotential b cfg U (crawlStep b cfg s) < crawlPotential b cfg U s := by
  cases hqe : s.queue with
  | nil => exact absurd hqe hne
  | cons u rest =>
    have hu : u ∈ U := hq u (by rw [hqe]; exact List.mem_cons_self u rest)
    by_cases hv : s.visited.contains u = true
    · rw [crawlStep_of_visited b cfg s u rest hqe hv]
      simp [crawlPotential, hqe]
    · rw [Bool.not_eq_true] at hv
      have hv' : u ∉ s.visited := by simpa using hv
      have hins := unvisitedWeight_insert b cfg U s.visited u hu hv'
      simp only [linkWeight] at hins
      cases hn : b.navOk u with
      | false =>
        rw [crawlStep_of_navFail b cfg s u rest hqe hv hn]
        simp only [crawlPotential, hqe, List.length_cons]
        rw [hins]
        omega
      | true =>
        rw [crawlStep_of_processed b cfg s u rest hqe hv hn]
        simp only [crawlPotential, hqe, List.length_cons, List.length_append]
        rw [hins]
        have hlen :
            ((getLinksFromPage b u cfg.domain).filter
              (admitLink cfg (u :: s.visited))).length ≤
              (getLinksFromPage b u cfg.domain).length :=
          List.length_filter_le _ _
        omega

lemma queue_subset_crawlStep (b : Browser) (cfg : Config) (U : Finset String)
    (s : CrawlState)
    (hU : ∀ u l, l ∈ getLinksFromPage b u cfg.domain → l ∈ U)
    (hq : ∀ x ∈ s.queue, x ∈ U) :
    ∀ x ∈ (crawlStep b cfg s).queue, x ∈ U := by
  cases hqe : s.queue with
  | nil => rw [crawlStep_of_queue_nil b cfg s hqe]; exact hq
  | cons u rest =>
    have hrest : ∀ x ∈ rest, x ∈ U := fun x hx =>
      hq x (by rw [hqe]; exact List.mem_cons_of_mem u hx)
    by_cases hv : s.visited.contains u = true
    · rw [crawlStep_of_visited b cfg s u rest hqe hv]; exact hrest
    · rw [Bool.not_eq_true] at hv
      cases hn : b.navOk u with
      | false => rw [crawlStep_of_navFail b cfg s u rest hqe hv hn]; exact hrest
      | true =>
        rw [crawlStep_of_processed b cfg s u rest hqe hv hn]
        intro x hx
        rcases List.mem_append.mp hx with h1 | h2
        · exact hrest x h1
        · exact hU u x (List.mem_of_mem_filter h2)

lemma crawlRun_queue_nil (b : Browser) (cfg : Config) (n : Nat) :
    ∀ s : CrawlState, s.queue = [] → crawlRun b cfg n s = s := by
  induction n with
  | zero => intro s _; rfl
  | succ n ih =>
    intro s h
    show crawlRun b cfg n (crawlStep b cfg s) = s
    rw [crawlStep_of_queue_nil b cfg s h]
    exact ih s h

lemma crawl_empties (b : Browser) (cfg : Config) (U : Finset String)
    (hU : ∀ u l, l ∈ getLinksFromPage b u cfg.domain → l ∈ U) :
    ∀ (k : Nat) (s : CrawlState), crawlPotential b cfg U s ≤ k →
      (∀ x ∈ s.queue, x ∈ U) → (crawlRun b cfg k s).queue = [] := by
  intro k
  induction k with
  | zero =>
    intro s hpot _
    have hlen : s.queue.length = 0 := by
      simp only [crawlPotential] at hpot
      omega
    exact List.eq_nil_of_length_eq_zero hlen
  | succ k ih =>
    intro s hpot hq
    by_cases hqe : s.queue = []
    · rw [crawlRun_queue_nil b cfg (k + 1) s hqe]; exact hqe
    · show (crawlRun b cfg k (crawlStep b cfg s)).queue = []
      refine ih (crawlStep b cfg s) ?_ (queue_subset_crawlStep b cfg U s hU hq)
      have hlt := crawlPotential_crawlStep_lt b cfg U s hq hqe
      omega

/-! ### Claim theorems -/

/-- Claim C1: screenshot capture and link extraction for a URL are performed
at most once across a run (even if the URL is enqueued via several
distinct incoming links), and a dequeued URL already present in the
visited set is discarded without any processing: the iteration only drops
it from the queue and records a `skipped` event. -/
theorem processed_at_most_once (b : Browser) (cfg : Config) (n : Nat)
    (u : String) :
    processedCount ((crawlRun b cfg n (crawlInit cfg)).events) u ≤ 1 ∧
    (∀ (s : CrawlState) (rest : List String), s.queue = u :: rest →
      s.visited.contains u = true →
      crawlStep b cfg s =
        { s with queue := rest, events := s.events ++ [Event.skipped u] }) := by
  constructor
  · have hb := procBound_crawlRun b cfg n (crawlInit cfg) (procBound_crawlInit cfg) u
    refine le_trans hb ?_
    split <;> omega
  · intro s rest hq hv
    exact crawlStep_of_visited b cfg s u rest hq hv

theorem processed_at_most_once_witness :
    processedCount ((crawlRun exBrowser exConfig 4 (crawlInit exConfig)).events)
        "https://example.com/a" ≤ 1 ∧
    crawlStep exBrowser exConfig
        { queue := ["https://example.com/a"],
          visited := ["https://example.com/a"], events := [] } =
      { queue := [], visited := ["https://example.com/a"],
        events := [Event.skipped "https://example.com/a"] } :=
  ⟨(processed_at_most_once exBrowser exConfig 4 "https://example.com/a").1,
   (processed_at_most_once exBrowser exConfig 4 "https://example.com/a").2
     { queue := ["https://example.com/a"],
       visited := ["https://example.com/a"], events := [] }
     [] rfl (by decide)⟩

/-- Claim C2: when every page's extracted links stay inside a finite universe
`U` of URLs that also holds the seed, the crawl loop terminates with an
empty frontier; moreover the visited set only grows (no element is ever
removed), every dequeued URL is either discarded as already visited or
added to the visited set, and the enqueue guard admits only URLs not
already visited. -/
theorem crawl_terminates (b : Browser) (cfg : Config) (U : Finset String)
    (hU : ∀ u l, l ∈ getLinksFromPage b u cfg.domain → l ∈ U)
    (hseed : cfg.url ∈ U) :
    (∃ n, (crawlRun b cfg n (crawlInit cfg)).queue = []) ∧
    (∀ (s : CrawlState) (n : Nat) (u : String), u ∈ s.visited →
      u ∈ (crawlRun b cfg n s).visited) ∧
    (∀ (s : CrawlState) (u : String) (rest : List String), s.queue = u :: rest →
      ((crawlStep b cfg s).visited = s.visited ∧ s.visited.contains u = true) ∨
      ((crawlStep b cfg s).visited = u :: s.visited ∧
        s.visited.contains u = false)) ∧
    (∀ (v : List String) (l : String), admitLink cfg v l = true →
      v.contains l = false) := by
  refine ⟨⟨crawlPotential b cfg U (crawlInit cfg), ?_⟩, ?_, ?_, ?_⟩
  · refine crawl_empties b cfg U hU _ (crawlInit cfg) le_rfl ?_
    intro x hx
    have hx' : x = cfg.url := by simpa [crawlInit] using hx
    rw [hx']; exact hseed
  · intro s n u hu
    exact visited_subset_crawlRun b cfg n s u hu
  · intro s u rest hqe
    by_cases hv : s.visited.contains u = true
    · left
      rw [crawlStep_of_visited b cfg s u rest hqe hv]
      exact ⟨rfl, hv⟩
    · right
      rw [Bool.not_eq_true] at hv
      cases hn : b.navOk u with
      | false => rw [crawlStep_of_navFail b cfg s u rest hqe hv hn]; exact ⟨rfl, hv⟩
      | true => rw [crawlStep_of_processed b cfg s u rest hqe hv hn]; exact ⟨rfl, hv⟩
  · intro v l hl
    rw [admitLink, Bool.and_eq_true] at hl
    simpa using hl.1

theorem crawl_terminates_witness :
    ∃ n, (crawlRun emptyBrowser exConfig n (crawlInit exConfig)).queue = [] :=
  (crawl_terminates emptyBrowser exConfig {exConfig.url}
    (by
      intro u l h
      simp [getLinksFromPage, emptyBrowser, modelBrowser] at h)
    (Finset.mem_singleton_self _)).1

/-- Claim C3: a dequeued, not-yet-visited URL is inserted into the visited
set before navigation is attempted; if navigation fails the iteration
records only a `navFailed` event (so the URL produces zero screenshot
files and zero extracted links), the crawl continues with the remaining
frontier, and the URL is never processed in any number of later
iterations. -/
theorem navigation_failure_skipped_forever (b : Browser) (cfg : Config)
    (s : CrawlState) (u : String) (rest : List String)
    (hq : s.queue = u :: rest) (hv : s.visited.contains u = false)
    (hn : b.navOk u = false) (hp : processedCount s.events u = 0) :
    crawlStep b cfg s =
      { queue := rest, visited := u :: s.visited,
        events := s.events ++ [Event.navFailed u] } ∧
    ∀ n, processedCount ((crawlRun b cfg n (crawlStep b cfg s)).events) u = 0 := by
  have hstep := crawlStep_of_navFail b cfg s u rest hq hv hn
  refine ⟨hstep, fun n => ?_⟩
  have hmem : u ∈ (crawlStep b cfg s).visited := by
    rw [hstep]; exact List.mem_cons_self u s.visited
  rw [processedCount_crawlRun_of_visited b cfg n (crawlStep b cfg s) u hmem,
    hstep]
  simp [processedCount_append, processedCount_navFailed, hp]

theorem navigation_failure_skipped_forever_witness :
    crawlStep failBrowser exConfig
        { queue := ["https://example.com/a"], visited := [], events := [] } =
      { queue := [], visited := ["https://example.com/a"],
        events := [Event.navFailed "https://example.com/a"] } ∧
    processedCount ((crawlRun failBrowser exConfig 3
        (crawlStep failBrowser exConfig
          { queue := ["https://example.com/a"], visited := [],
            events := [] })).events) "https://example.com/a" = 0 :=
  ⟨(navigation_failure_skipped_forever failBrowser exConfig
      { queue := ["https://example.com/a"], visited := [], events := [] }
      "https://example.com/a" [] rfl rfl (by decide) rfl).1,
   (navigation_failure_skipped_forever failBrowser exConfig
      { queue := ["https://example.com/a"], visited := [], events := [] }
      "https://example.com/a" [] rfl rfl (by decide) rfl).2 3⟩

lemma admitHref_none_of_illegal (b : Browser) (pageUrl domain : String)
    (href : Option String) (h : illegalHref href = true) :
    admitHref b pageUrl domain href = none := by
  match href with
  | none => rfl
  | some hs =>
    by_cases h0 : hs = ""
    · simp [admitHref, h0]
    · have hw : (["mailto:", "tel:", "javascript:", "#"].any
          (fun w => strContains hs w)) = true := by
        simp only [illegalHref, Bool.or_eq_true, decide_eq_true_eq] at h
        rcases h with ((((h | h) | h) | h) | h)
        · exact absurd h h0
        all_goals simp [h]
      simp [admitHref, h0, hw]

lemma filterMap_skips_illegal (f : Option String → Option String)
    (hf : ∀ a, illegalHref a = true → f a = none) (as : List (Option String)) :
    as.filterMap f = (as.filter (fun a => !illegalHref a)).filterMap f := by
  induction as with
  | nil => rfl
  | cons a as ih =>
    cases ha : illegalHref a with
    | true =>
      rw [List.filter_cons, List.filterMap_cons, hf a ha]
      simp only [ha, Bool.not_true]
      simpa using ih
    | false =>
      rw [List.filter_cons]
      simp only [ha, Bool.not_false, if_pos]
      rw [List.filterMap_cons, List.filterMap_cons]
      cases hfa : f a with
      | none => exact ih
      | some y => rw [ih]

/-- Claim C4: an anchor href that is missing or empty, or contains one of the
substrings `mailto:`, `tel:`, `javascript:`, `#` anywhere, is rejected by
the admission decision, and the extractor's output is unchanged when all
such hrefs are dropped from the anchor list: such an href is never
returned and hence never enqueued. -/
theorem illegal_href_rejected (b : Browser) (pageUrl domain : String)
    (href : Option String) (h : illegalHref href = true) :
    admitHref b pageUrl domain href = none ∧
    getLinksFromPage b pageUrl domain =
      ((b.anchors pageUrl).filter (fun a => !illegalHref a)).filterMap
        (admitHref b pageUrl domain) := by
  refine ⟨admitHref_none_of_illegal b pageUrl domain href h, ?_⟩
  rw [getLinksFromPage]
  exact filterMap_skips_illegal _
    (fun a ha => admitHref_none_of_illegal b pageUrl domain a ha) _

theorem illegal_href_rejected_witness :
    admitHref exBrowser "https://example.com/" "example.com"
        (some "mailto:x@y.com") = none ∧
    getLinksFromPage exBrowser "https://example.com/" "example.com" =
      ((exBrowser.anchors "https://example.com/").filter
        (fun a => !illegalHref a)).filterMap
        (admitHref exBrowser "https://example.com/" "example.com") :=
  illegal_href_rejected exBrowser "https://example.com/" "example.com"
    (some "mailto:x@y.com") (by decide)

/-- Claim C5: every href admitted by link extraction resolves — against the
current page URL — to a URL whose hostname is exactly string-equal to the
configured domain; an href whose resolved hostname differs is never
returned. -/
theorem admitted_hostname_matches_domain (b : Browser)
    (pageUrl domain hs res : String)
    (hadm : admitHref b pageUrl domain (some hs) = some res) :
    b.hostnameOf (b.resolve pageUrl hs) = domain := by
  by_cases h0 : hs = ""
  · simp [admitHref, h0] at hadm
  · by_cases hw : (["mailto:", "tel:", "javascript:", "#"].any
        (fun w => strContains hs w)) = true
    · simp [admitHref, h0, hw] at hadm
    · by_cases hd : b.hostnameOf (b.resolve pageUrl hs) = domain
      · exact hd
      · simp [admitHref, h0, hw, hd] at hadm

theorem admitted_hostname_matches_domain_witness :
    exBrowser.hostnameOf (exBrowser.resolve "https://example.com/" "/a") =
      "example.com" :=
  admitted_hostname_matches_domain exBrowser "https://example.com/"
    "example.com" "/a" "https://example.com/a" (by decide)

lemma queue_seed_prefixed_crawlStep (b : Browser) (cfg : Config)
    (s : CrawlState)
    (h : ∀ l ∈ s.queue, l = cfg.url ∨ strStart l cfg.url = true) :
    ∀ l ∈ (crawlStep b cfg s).queue, l = cfg.url ∨ strStart l cfg.url = true := by
  cases hq : s.queue with
  | nil => rw [crawlStep_of_queue_nil b cfg s hq]; exact h
  | cons u rest =>
    have htail : ∀ l ∈ rest, l = cfg.url ∨ strStart l cfg.url = true :=
      fun l hl => h l (by rw [hq]; exact List.mem_cons_of_mem u hl)
    by_cases hv : s.visited.contains u = true
    · rw [crawlStep_of_visited b cfg s u rest hq hv]; exact htail
    · rw [Bool.not_eq_true] at hv
      cases hn : b.navOk u with
      | false => rw [crawlStep_of_navFail b cfg s u rest hq hv hn]; exact htail
      | true =>
        rw [crawlStep_of_processed b cfg s u rest hq hv hn]
        intro l hl
        rcases List.mem_append.mp hl with h1 | h2
        · exact htail l h1
        · right
          have hadm : admitLink cfg (u :: s.visited) l = true :=
            List.of_mem_filter h2
          rw [admitLink, Bool.and_eq_true] at hadm
          exact hadm.2

lemma queue_seed_prefixed_crawlRun (b : Browser) (cfg : Config) (n : Nat) :
    ∀ s : CrawlState,
      (∀ l ∈ s.queue, l = cfg.url ∨ strStart l cfg.url = true) →
      ∀ l ∈ (crawlRun b cfg n s).queue, l = cfg.url ∨ strStart l cfg.url = true := by
  induction n with
  | zero => intro s h; exact h
  | succ n ih =>
    intro s h
    exact ih _ (queue_seed_prefixed_crawlStep b cfg s h)

/-- Claim C6: every URL the scheduler enqueues beyond the seed passes the
enqueue guard — it is not in the visited set at enqueue time and its
string starts with the seed URL string — and consequently each queue
element at any point of a run from the initial state is the seed itself
or is prefixed by the seed URL string. -/
theorem enqueued_unvisited_and_seed_prefixed (b : Browser) (cfg : Config) :
    (∀ (v : List String) (l : String), admitLink cfg v l = true →
      v.contains l = false ∧ strStart l cfg.url = true) ∧
    (∀ (s : CrawlState) (u : String) (rest : List String), s.queue = u :: rest →
      s.visited.contains u = false → b.navOk u = true →
      ∀ l ∈ (crawlStep b cfg s).queue, l ∈ rest ∨
        ((crawlStep b cfg s).visited.contains l = false ∧
          strStart l cfg.url = true)) ∧
    (∀ (n : Nat) (l : String), l ∈ (crawlRun b cfg n (crawlInit cfg)).queue →
      l = cfg.url ∨ strStart l cfg.url = true) := by
  refine ⟨?_, ?_, ?_⟩
  · intro v l hl
    rw [admitLink, Bool.and_eq_true] at hl
    exact ⟨by simpa using hl.1, hl.2⟩
  · intro s u rest hq hv hn l hl
    rw [crawlStep_of_processed b cfg s u rest hq hv hn] at hl ⊢
    rcases List.mem_append.mp hl with h1 | h2
    · exact Or.inl h1
    · right
      have hadm : admitLink cfg (u :: s.visited) l = true :=
        List.of_mem_filter h2
      rw [admitLink, Bool.and_eq_true] at hadm
      exact ⟨by simpa using hadm.1, hadm.2⟩
  · intro n l hl
    refine queue_seed_prefixed_crawlRun b cfg n (crawlInit cfg) ?_ l hl
    intro x hx
    left
    simpa [crawlInit] using hx

theorem enqueued_unvisited_and_seed_prefixed_witness :
    ((["x"] : List String).contains "https://example.com/a" = false ∧
      strStart "https://example.com/a" exConfig.url = true) ∧
    ("https://example.com/a" = exConfig.url ∨
      strStart "https://example.com/a" exConfig.url = true) :=
  ⟨(enqueued_unvisited_and_seed_prefixed exBrowser exConfig).1 ["x"]
      "https://example.com/a" (by decide),
   (enqueued_unvisited_and_seed_prefixed exBrowser exConfig).2.2 2
      "https://example.com/a" (by decide)⟩

lemma foldl_append_map {α β : Type} (f : α → β) :
    ∀ (l : List α) (acc : List β),
      l.foldl (fun w r => w ++ [f r]) acc = acc ++ l.map f := by
  intro l
  induction l with
  | nil => intro acc; simp
  | cons x xs ih => intro acc; simp [List.foldl_cons, ih]

/-- Claim C7: the frontier is a FIFO queue — each iteration removes the
dequeued head and appends the newly admitted URLs (if any) at the tail,
giving breadth-first discovery order — and within one page the screenshot
files are written sequentially in exactly the order the resolution
strings were configured (the write list is the configured list mapped to
file paths, not sorted or reordered). -/
theorem fifo_frontier_and_configured_resolution_order (b : Browser)
    (cfg : Config) :
    (∀ (s : CrawlState) (u : String) (rest : List String), s.queue = u :: rest →
      (crawlStep b cfg s).queue = rest ∨
      (crawlStep b cfg s).queue =
        rest ++ (getLinksFromPage b u cfg.domain).filter
          (admitLink cfg (u :: s.visited))) ∧
    (∀ (rootDir url : String) (resolutions : List String),
      captureScreenshotsForPage rootDir url resolutions =
        resolutions.map (fun r => (screenshotFilename rootDir url r).getD "")) := by
  constructor
  · intro s u rest hq
    by_cases hv : s.visited.contains u = true
    · left; rw [crawlStep_of_visited b cfg s u rest hq hv]
    · rw [Bool.not_eq_true] at hv
      cases hn : b.navOk u with
      | false => left; rw [crawlStep_of_navFail b cfg s u rest hq hv hn]
      | true => right; rw [crawlStep_of_processed b cfg s u rest hq hv hn]
  · intro rootDir url resolutions
    rw [captureScreenshotsForPage, foldl_append_map]
    rfl

theorem fifo_frontier_and_configured_resolution_order_witness :
    ((crawlStep exBrowser exConfig (crawlInit exConfig)).queue = [] ∨
      (crawlStep exBrowser exConfig (crawlInit exConfig)).queue =
        [] ++ (getLinksFromPage exBrowser "https://example.com/"
            exConfig.domain).filter
          (admitLink exConfig ["https://example.com/"])) ∧
    captureScreenshotsForPage "/root" "https://example.com/"
        ["800x600", "1024x768"] =
      ["800x600", "1024x768"].map
        (fun r => (screenshotFilename "/root" "https://example.com/" r).getD "") :=
  ⟨(fifo_frontier_and_configured_resolution_order exBrowser exConfig).1
      (crawlInit exConfig) "https://example.com/" [] rfl,
   (fifo_frontier_and_configured_resolution_order exBrowser exConfig).2
      "/root" "https://example.com/" ["800x600", "1024x768"]⟩

lemma illegalPathChar_iff (c : Char) :
    illegalPathChar c = true ↔
      (c ∈ ['<', '>', ':', '"', '/', '\\', '|', '?', '*'] ∨ c.toNat ≤ 0x1F) := by
  simp only [illegalPathChar, Bool.or_eq_true, decide_eq_true_eq,
    List.mem_cons, List.not_mem_nil, or_false]
  tauto

lemma keepChar_eq (c : Char) :
    (!illegalPathChar c) =
      decide (¬(c ∈ ['<', '>', ':', '"', '/', '\\', '|', '?', '*'] ∨
        c.toNat ≤ 0x1F)) := by
  by_cases h : (c ∈ ['<', '>', ':', '"', '/', '\\', '|', '?', '*'] ∨
      c.toNat ≤ 0x1F)
  · rw [(illegalPathChar_iff c).mpr h, decide_eq_false (not_not_intro h)]
    rfl
  · have hf : illegalPathChar c = false := by
      cases hc : illegalPathChar c
      · rfl
      · exact absurd ((illegalPathChar_iff c).mp hc) h
    rw [hf, decide_eq_true h]
    rfl

lemma segKeep_eq (s : String) :
    ((s ≠ "" && s ≠ "https:") : Bool) = decide (¬(s = "" ∨ s = "https:")) := by
  by_cases h1 : s = "" <;> by_cases h2 : s = "https:" <;> simp [h1, h2]

lemma sanitizeSegment_eq_spec (seg : String) :
    sanitizeSegment seg =
      String.mk (seg.data.filter (fun c =>
        ¬(c ∈ ['<', '>', ':', '"', '/', '\\', '|', '?', '*'] ∨
          c.toNat ≤ 0x1F))) := by
  rw [sanitizeSegment]
  congr 1
  exact List.filter_congr (fun c _ => keepChar_eq c)

/-- Claim C9 as stated fails on the code: an admitted href that already
contains `://` is pushed verbatim, not resolved against the page URL, and
resolution is not the identity on such hrefs — resolving
`https://example.com` against the page serialises with a trailing slash,
so the returned string is not the href resolved to an absolute URL
string. -/
theorem returned_href_not_resolved_cex :
    admitHref exBrowser "https://example.com/" "example.com"
        (some "https://example.com") = some "https://example.com" ∧
    exBrowser.resolve "https://example.com/" "https://example.com" =
      "https://example.com/" ∧
    ("https://example.com" : String) ≠ "https://example.com/" :=
  ⟨by decide, by decide, by decide⟩

/-- Claim C9 amended: a URL string returned by link extraction is the
anchor's href resolved against the current page's URL whenever the href
does not contain `://`; an href that does contain `://` is returned
verbatim (and only coincides with its resolution when it is already a
normalised absolute URL). -/
theorem extractor_resolves_only_relative (b : Browser)
    (pageUrl domain hs res : String)
    (hadm : admitHref b pageUrl domain (some hs) = some res) :
    (strContains hs "://" = false → res = b.resolve pageUrl hs) ∧
    (strContains hs "://" = true → res = hs) := by
  by_cases h0 : hs = ""
  · simp [admitHref, h0] at hadm
  · by_cases hw : (["mailto:", "tel:", "javascript:", "#"].any
        (fun w => strContains hs w)) = true
    · simp [admitHref, h0, hw] at hadm
    · by_cases hd : b.hostnameOf (b.resolve pageUrl hs) = domain
      · constructor <;> intro hc <;>
          simp [admitHref, h0, hw, hd, hc] at hadm <;> exact hadm.symm
      · simp [admitHref, h0, hw, hd] at hadm

theorem extractor_resolves_only_relative_witness :
    ("https://example.com/a" : String) =
      exBrowser.resolve "https://example.com/" "/a" :=
  (extractor_resolves_only_relative exBrowser "https://example.com/"
    "example.com" "/a" "https://example.com/a" (by decide)).1 (by decide)

/-- Claim C10: the same URL string can be present in the frontier more than
once simultaneously — the enqueue guard `admitLink` consults the visited
set and the seed prefix only, never queue membership — and correctness is
preserved by the dequeue-time visited check alone: in the run below the
seed page links twice to `/a`, after one iteration the queue holds two
copies of `https://example.com/a`, and the finished run has processed it
exactly once, the surviving duplicate being discarded as visited. -/
theorem duplicate_queue_entries_deduped_at_dequeue :
    (crawlRun exBrowser exConfig 1 (crawlInit exConfig)).queue =
      ["https://example.com/a", "https://example.com/a"] ∧
    processedCount
      ((crawlRun exBrowser exConfig 4 (crawlInit exConfig)).events)
      "https://example.com/a" = 1 ∧
    (crawlRun exBrowser exConfig 4 (crawlInit exConfig)).queue = [] ∧
    Event.skipped "https://example.com/a" ∈
      (crawlRun exBrowser exConfig 4 (crawlInit exConfig)).events :=
  ⟨by decide, by decide, by decide, by decide⟩

/-! ### Properties of the path-joining model -/

lemma splitOnChar_ne_nil (sep : Char) : ∀ l : List Char, splitOnChar sep l ≠ []
  | [] => by simp [splitOnChar]
  | c :: rest => by
    simp only [splitOnChar]
    split
    · simp
    · split <;> simp

lemma splitOnChar_cons (sep c : Char) (rest : List Char) :
    splitOnChar sep (c :: rest) =
      if c = sep then [] :: splitOnChar sep rest
      else
        match splitOnChar sep rest with
        | [] => [[c]]
        | seg :: segs => (c :: seg) :: segs := rfl

lemma splitOnChar_append (sep : Char) : ∀ (xs ys : List Char),
    splitOnChar sep (xs ++ sep :: ys) = splitOnChar sep xs ++ splitOnChar sep ys
  | [], ys => by rw [List.nil_append, splitOnChar_cons, if_pos rfl]; rfl
  | c :: xs, ys => by
    have ih := splitOnChar_append sep xs ys
    by_cases hc : c = sep
    · rw [List.cons_append, splitOnChar_cons, splitOnChar_cons, if_pos hc,
        if_pos hc, ih]
      rfl
    · rw [List.cons_append, splitOnChar_cons, splitOnChar_cons, if_neg hc,
        if_neg hc, ih]
      cases hsp : splitOnChar sep xs with
      | nil => exact absurd hsp (splitOnChar_ne_nil sep xs)
      | cons seg segs => simp

lemma splitOnChar_of_not_contains (sep : Char) : ∀ (xs : List Char),
    xs.contains sep = false → splitOnChar sep xs = [xs]
  | [], _ => rfl
  | c :: xs, h => by
    have hc : (sep == c) = false ∧ xs.contains sep = false := by
      simpa [List.contains_cons] using h
    have hcs : ¬(c = sep) := by
      intro he
      rw [he] at hc
      simp at hc
    simp only [splitOnChar, if_neg hcs]
    rw [splitOnChar_of_not_contains sep xs hc.2]

lemma charsStart_append_left : ∀ (l m : List Char), l ≠ [] →
    charsStart (l ++ m) ['/'] = charsStart l ['/']
  | [], _, h => absurd rfl h
  | c :: t, m, _ => by simp [charsStart]

lemma charsStart_slash_reverse_false (l : List Char)
    (h : l.contains '/' = false) : charsStart l.reverse ['/'] = false := by
  cases hr : l.reverse with
  | nil => rfl
  | cons c t =>
    have hcl : c ∈ l := by
      have h1 : c ∈ l.reverse := by rw [hr]; exact List.mem_cons_self c t
      simpa using h1
    have hslash : ('/' : Char) ∉ l := by simpa using h
    have hne : ¬(c = '/') := fun he => hslash (he ▸ hcl)
    simp [charsStart, hne]

lemma charsStart_reverse_append (a b : List Char) (hb : b ≠ []) :
    charsStart (a ++ b).reverse ['/'] = charsStart b.reverse ['/'] := by
  rw [List.reverse_append]
  exact charsStart_append_left b.reverse a.reverse (by simpa using hb)

lemma cleanSeg_spec (s : String) (h : cleanSeg s = true) :
    s ≠ "" ∧ s ≠ "." ∧ s ≠ ".." ∧ s.data.contains '/' = false := by
  simp only [cleanSeg, Bool.and_eq_true, decide_eq_true_eq,
    Bool.not_eq_true'] at h
  tauto

lemma joinSegs_singleton (s : String) : joinSegs [s] = s := rfl

lemma joinSegs_cons_cons (s r : String) (rest : List String) :
    joinSegs (s :: r :: rest) = s ++ "/" ++ joinSegs (r :: rest) := rfl

lemma joinSegs_data_cons (s r : String) (rest : List String) :
    (joinSegs (s :: r :: rest)).data =
      s.data ++ '/' :: (joinSegs (r :: rest)).data := by
  rw [joinSegs_cons_cons]
  show (s.data ++ ['/']) ++ _ = _
  simp

lemma joinSegs_data_ne_nil : ∀ (segs : List String), segs ≠ [] →
    (∀ s ∈ segs, cleanSeg s = true) → (joinSegs segs).data ≠ []
  | [], h, _ => absurd rfl h
  | [s], _, h2 => by
    have hs := cleanSeg_spec s (h2 s (List.mem_cons_self s []))
    show s.data ≠ []
    intro hd
    exact hs.1 (String.ext hd)
  | s :: r :: t, _, _ => by
    rw [joinSegs_data_cons]
    intro hcontra
    simp at hcontra

lemma splitParts_joinSegs_cons : ∀ (d : String) (segs : List String),
    (∀ s ∈ segs, cleanSeg s = true) →
    splitParts (joinSegs (d :: segs)) = splitParts d ++ segs
  | _, [], _ => by simp [joinSegs_singleton]
  | d, r :: t, h => by
    have hr := cleanSeg_spec r (h r (List.mem_cons_self r t))
    have ht : ∀ s ∈ t, cleanSeg s = true :=
      fun s hs => h s (List.mem_cons_of_mem r hs)
    have ih := splitParts_joinSegs_cons r t ht
    simp only [splitParts] at ih ⊢
    rw [joinSegs_data_cons, splitOnChar_append, List.map_append, ih,
      splitOnChar_of_not_contains '/' r.data hr.2.2.2]
    simp

lemma normSegs_clean : ∀ (l : List String) (acc : List String) (isAbs : Bool),
    (∀ s ∈ l, cleanSeg s = true) → normSegs isAbs acc l = acc.reverse ++ l
  | [], acc, isAbs, _ => by simp [normSegs]
  | s :: rest, acc, isAbs, h => by
    have hs := cleanSeg_spec s (h s (List.mem_cons_self s rest))
    have hrest : ∀ x ∈ rest, cleanSeg x = true :=
      fun x hx => h x (List.mem_cons_of_mem s hx)
    simp only [normSegs]
    rw [if_neg (by simp [hs.1, hs.2.1]), if_neg (by simp [hs.2.2.1])]
    rw [normSegs_clean rest (s :: acc) isAbs hrest]
    simp

lemma joinSegs_reverse_slash_false : ∀ (d : String) (segs : List String),
    charsStart d.data.reverse ['/'] = false →
    (∀ s ∈ segs, cleanSeg s = true) →
    charsStart (joinSegs (d :: segs)).data.reverse ['/'] = false
  | _, [], hd, _ => hd
  | d, r :: t, _, h => by
    have hr := cleanSeg_spec r (h r (List.mem_cons_self r t))
    have ht : ∀ x ∈ t, cleanSeg x = true :=
      fun x hx => h x (List.mem_cons_of_mem r hx)
    have ih := joinSegs_reverse_slash_false r t
      (charsStart_slash_reverse_false r.data hr.2.2.2) ht
    have hne : (joinSegs (r :: t)).data ≠ [] :=
      joinSegs_data_ne_nil (r :: t) (by simp) h
    rw [joinSegs_data_cons,
      charsStart_reverse_append d.data ('/' :: (joinSegs (r :: t)).data)
        (by simp)]
    show charsStart (['/'] ++ (joinSegs (r :: t)).data).reverse ['/'] = false
    rw [charsStart_reverse_append ['/'] _ hne]
    exact ih

lemma joinSegs_append : ∀ (a b : List String), a ≠ [] → b ≠ [] →
    joinSegs (a ++ b) = joinSegs a ++ "/" ++ joinSegs b
  | [], _, ha, _ => absurd rfl ha
  | [x], b, _, hb => by
    cases b with
    | nil => exact absurd rfl hb
    | cons y ys => rfl
  | x :: x2 :: t, b, _, hb => by
    have ih := joinSegs_append (x2 :: t) b (by simp) hb
    show joinSegs (x :: (x2 :: (t ++ b))) = _
    rw [joinSegs_cons_cons]
    have : x2 :: (t ++ b) = (x2 :: t) ++ b := rfl
    rw [this, ih, joinSegs_cons_cons]
    simp [String.append_assoc]

lemma joinSegs_splitOnChar : ∀ (l : List Char),
    joinSegs ((splitOnChar '/' l).map (fun c => String.mk c)) = String.mk l
  | [] => rfl
  | c :: rest => by
    have ih := joinSegs_splitOnChar rest
    by_cases hc : c = '/'
    · subst hc
      rw [splitOnChar_cons, if_pos rfl]
      cases hsp : splitOnChar '/' rest with
      | nil => exact absurd hsp (splitOnChar_ne_nil '/' rest)
      | cons seg segs =>
        rw [hsp] at ih
        simp only [List.map_cons]
        rw [joinSegs_cons_cons]
        simp only [List.map_cons] at ih
        rw [ih]
        apply String.ext
        simp
    · rw [splitOnChar_cons, if_neg hc]
      cases hsp : splitOnChar '/' rest with
      | nil => exact absurd hsp (splitOnChar_ne_nil '/' rest)
      | cons seg segs =>
        rw [hsp] at ih
        show joinSegs (((c :: seg) :: segs).map (fun c => String.mk c)) =
          String.mk (c :: rest)
        cases segs with
        | nil =>
          simp only [List.map_cons, List.map_nil]
          show String.mk (c :: seg) = String.mk (c :: rest)
          have hseg : seg = rest := congrArg String.data ih
          rw [hseg]
        | cons s2 t2 =>
          simp only [List.map_cons]
          rw [joinSegs_cons_cons]
          simp only [List.map_cons] at ih
          rw [joinSegs_cons_cons] at ih
          have h1 : String.mk (c :: seg) = String.mk [c] ++ String.mk seg :=
            String.ext (by simp)
          have h2 : String.mk (c :: rest) = String.mk [c] ++ String.mk rest :=
            String.ext (by simp)
          rw [h1, h2, ← ih]
          simp [String.append_assoc]

lemma str_empty_append (s : String) : "" ++ s = s :=
  String.ext (by simp)

lemma str_append_empty (s : String) : s ++ "" = s :=
  String.ext (by simp)

lemma splitParts_ne_nil (s : String) : splitParts s ≠ [] := by
  intro h0
  exact splitOnChar_ne_nil '/' s.data (List.map_eq_nil_iff.mp h0)

lemma normSegs_cons (isAbs : Bool) (acc : List String) (seg : String)
    (rest : List String) :
    normSegs isAbs acc (seg :: rest) =
      if seg = "" || seg = "." then normSegs isAbs acc rest
      else if seg = ".." then
        match acc with
        | [] =>
          if isAbs then normSegs isAbs [] rest else normSegs isAbs [".."] rest
        | top :: acc2 =>
          if top = ".." then normSegs isAbs (".." :: top :: acc2) rest
          else normSegs isAbs acc2 rest
      else normSegs isAbs (seg :: acc) rest := rfl

lemma normSegs_empty_cons (isAbs : Bool) (acc : List String)
    (l : List String) : normSegs isAbs acc ("" :: l) = normSegs isAbs acc l := by
  rw [normSegs_cons, if_pos (by simp)]

lemma cleanAbsDir_spec (d : String) (h : cleanAbsDir d = true) :
    charsStart d.data ['/'] = true ∧
      ((splitParts d).drop 1).all cleanSeg = true ∧
      charsStart d.data.reverse ['/'] = false := by
  simp only [cleanAbsDir, Bool.and_eq_true, Bool.not_eq_true'] at h
  tauto

lemma joinSegs_cons_append (d : String) (rs : List String)
    (segs : List String) (hrs : rs ≠ []) (hd : d = "/" ++ joinSegs rs) :
    "/" ++ joinSegs (rs ++ segs) = joinSegs (d :: segs) := by
  cases segs with
  | nil => rw [List.append_nil, joinSegs_singleton, hd]
  | cons e es =>
    rw [joinSegs_append rs (e :: es) hrs (by simp), joinSegs_cons_cons, hd]
    simp [String.append_assoc]

lemma pathJoin_cons_clean (d : String) (segs : List String)
    (hd : cleanAbsDir d = true) (hsegs : ∀ s ∈ segs, cleanSeg s = true) :
    pathJoin (d :: segs) = joinSegs (d :: segs) := by
  obtain ⟨hstart, hdropclean, htrail⟩ := cleanAbsDir_spec d hd
  have hdne : d.data ≠ [] := by
    intro h0
    rw [h0] at hstart
    simp [charsStart] at hstart
  have hdne2 : d ≠ "" := by
    intro he
    apply hdne
    rw [he]
  have hfilter : (d :: segs).filter (fun p => p ≠ "") = d :: segs := by
    rw [List.filter_eq_self]
    intro a ha
    rcases List.mem_cons.mp ha with h1 | h2
    · subst h1; simp [hdne2]
    · have := (cleanSeg_spec a (hsegs a h2)).1
      simp [this]
  obtain ⟨dtail, hdd⟩ : ∃ t, d.data = '/' :: t := by
    cases hdt : d.data with
    | nil => exact absurd hdt hdne
    | cons c t =>
      refine ⟨t, ?_⟩
      rw [hdt] at hstart
      have hc : c = '/' := by simpa [charsStart] using hstart
      rw [hc]
  have hsplitd : splitParts d =
      "" :: (splitOnChar '/' dtail).map (fun l => String.mk l) := by
    rw [splitParts, hdd, splitOnChar_cons, if_pos rfl]
    rfl
  have hrs_ne : (splitOnChar '/' dtail).map (fun l => String.mk l) ≠ [] := by
    intro h0
    exact splitOnChar_ne_nil '/' dtail (List.map_eq_nil_iff.mp h0)
  have hrs_clean :
      ∀ s ∈ (splitOnChar '/' dtail).map (fun l => String.mk l),
        cleanSeg s = true := by
    rw [hsplitd] at hdropclean
    exact fun s hs => List.all_eq_true.mp hdropclean s hs
  have hisAbs : charsStart (joinSegs (d :: segs)).data ['/'] = true := by
    cases segs with
    | nil => exact hstart
    | cons r t =>
      rw [joinSegs_data_cons, charsStart_append_left d.data _ hdne]
      exact hstart
  have htrailJ :
      charsStart (joinSegs (d :: segs)).data.reverse ['/'] = false :=
    joinSegs_reverse_slash_false d segs htrail hsegs
  have hnorm : normSegs true [] (splitParts (joinSegs (d :: segs))) =
      (splitOnChar '/' dtail).map (fun l => String.mk l) ++ segs := by
    rw [splitParts_joinSegs_cons d segs hsegs, hsplitd]
    show normSegs true []
      ("" :: ((splitOnChar '/' dtail).map (fun l => String.mk l) ++ segs)) = _
    rw [normSegs_empty_cons,
      normSegs_clean _ [] true (fun s hs => by
        rcases List.mem_append.mp hs with h1 | h2
        · exact hrs_clean s h1
        · exact hsegs s h2)]
    simp
  unfold pathJoin
  rw [hfilter]
  show normalizeParts (joinSegs (d :: segs)) = joinSegs (d :: segs)
  unfold normalizeParts
  rw [hisAbs, htrailJ, hnorm]
  cases hrs : (splitOnChar '/' dtail).map (fun l => String.mk l) with
  | nil => exact absurd hrs hrs_ne
  | cons r0 rt =>
    show "/" ++ joinSegs (r0 :: (rt ++ segs)) ++ "" = joinSegs (d :: segs)
    rw [str_append_empty]
    have hd_eq : d = "/" ++ joinSegs (r0 :: rt) := by
      have h1 : joinSegs ((splitOnChar '/' d.data).map (fun l => String.mk l))
          = d := joinSegs_splitOnChar d.data
      rw [hdd, splitOnChar_cons, if_pos rfl] at h1
      simp only [List.map_cons] at h1
      rw [hrs] at h1
      rw [joinSegs_cons_cons, str_empty_append] at h1
      exact h1.symm
    exact joinSegs_cons_append d (r0 :: rt) segs (by simp) hd_eq

lemma cleanAbsDir_pathJoin_cons (d : String) (segs : List String)
    (hd : cleanAbsDir d = true) (hsegs : ∀ s ∈ segs, cleanSeg s = true) :
    cleanAbsDir (pathJoin (d :: segs)) = true := by
  rw [pathJoin_cons_clean d segs hd hsegs]
  obtain ⟨hstart, hdropclean, htrail⟩ := cleanAbsDir_spec d hd
  have hdne : d.data ≠ [] := by
    intro h0
    rw [h0] at hstart
    simp [charsStart] at hstart
  simp only [cleanAbsDir, Bool.and_eq_true, Bool.not_eq_true']
  refine ⟨⟨?_, ?_⟩, ?_⟩
  · cases segs with
    | nil => exact hstart
    | cons r t =>
      rw [joinSegs_data_cons, charsStart_append_left d.data _ hdne]
      exact hstart
  · rw [splitParts_joinSegs_cons d segs hsegs]
    cases hps : splitParts d with
    | nil => exact absurd hps (splitParts_ne_nil d)
    | cons p0 pt =>
      show (pt ++ segs).all cleanSeg = true
      rw [hps] at hdropclean
      have hpt : pt.all cleanSeg = true := hdropclean
      have hsa : segs.all cleanSeg = true :=
        List.all_eq_true.mpr (fun x hx => hsegs x hx)
      rw [List.all_append, hpt, hsa]
      rfl
  · exact joinSegs_reverse_slash_false d segs htrail hsegs

lemma cleanSeg_append_png (res : String)
    (h : res.data.contains '/' = false) : cleanSeg (res ++ ".png") = true := by
  have hdata : (res ++ ".png").data = res.data ++ ['.', 'p', 'n', 'g'] := rfl
  have hmem : ('/' : Char) ∉ res.data := by simpa using h
  simp only [cleanSeg, Bool.and_eq_true, decide_eq_true_eq, Bool.not_eq_true']
  refine ⟨⟨⟨?_, ?_⟩, ?_⟩, ?_⟩
  · intro he
    have hd := congrArg String.data he
    rw [hdata] at hd
    simp at hd
  · intro he
    have hd := congrArg String.data he
    rw [hdata] at hd
    have hl := congrArg List.length hd
    simp at hl
  · intro he
    have hd := congrArg String.data he
    rw [hdata] at hd
    have hl := congrArg List.length hd
    simp at hl
  · rw [hdata]
    simp [hmem]

lemma intercalate_go_eq : ∀ (l : List String) (acc : String),
    String.intercalate.go acc "/" l = joinSegs (acc :: l)
  | [], _ => rfl
  | x :: xs, acc => by
    show String.intercalate.go (acc ++ "/" ++ x) "/" xs = _
    rw [intercalate_go_eq xs (acc ++ "/" ++ x)]
    cases xs with
    | nil => rfl
    | cons y ys =>
      rw [joinSegs_cons_cons, joinSegs_cons_cons, joinSegs_cons_cons]
      simp [String.append_assoc]

lemma intercalate_eq_joinSegs : ∀ l : List String,
    String.intercalate "/" l = joinSegs l
  | [] => rfl
  | a :: as => by
    show String.intercalate.go a "/" as = _
    exact intercalate_go_eq as a

/-- Claim C8 as stated fails on the code: the output path is built with
Node's `path.join`, which is not the spec's literal concatenation
`rootDir/images/<hostname>/<sanitized-segments...>/{width}x{height}.png` —
`path.join` skips segments that sanitise to the empty string and resolves
`..` segments.  Both divergences occur at reachable visited URLs: the
admitted raw absolute href `https://example.com/a/../b` and the in-subtree
link `https://example.com/:` (the colon sanitises to an empty segment). -/
theorem output_path_not_literal_concatenation_cex :
    screenshotFilename "/root" "https://example.com/a/../b" "800x600" =
      some "/root/images/example.com/b/800x600.png" ∧
    specOutputPath "/root" "https://example.com/a/../b" 800 600 =
      some "/root/images/example.com/a/../b/800x600.png" ∧
    screenshotFilename "/root" "https://example.com/a/../b" "800x600" ≠
      specOutputPath "/root" "https://example.com/a/../b" 800 600 ∧
    screenshotFilename "/root" "https://example.com/:" "800x600" =
      some "/root/images/example.com/800x600.png" ∧
    specOutputPath "/root" "https://example.com/:" 800 600 =
      some "/root/images/example.com//800x600.png" :=
  ⟨by decide, by decide, by decide, by decide, by decide⟩

/-- Claim C8 amended: the output file path is `path.join` applied to
`rootDir/images/<hostname>/<sanitized segments...>` and then to
`{width}x{height}.png`; whenever the hostname segment is clean (non-empty,
not `.`/`..`, no `/`), every later segment stays clean after sanitising,
`rootDir` is a normalised absolute directory and the resolution string
contains no `/`, `path.join` interposes `/` verbatim and the path is
exactly the spec's literal concatenation
`rootDir/images/<hostname>/<sanitized...>/{width}x{height}.png` (in
general `path.join` additionally drops empty segments and resolves `..`,
as the counterexample shows).  Both sides are pure functions, so the same
`(URL, resolution)` pair always yields the identical path. -/
theorem output_path_matches_spec_on_clean_segments (rootDir url : String)
    (width height : Nat) (hroot : cleanAbsDir rootDir = true)
    (hhost : ∀ hn ∈ (urlSegments url).take 1, cleanSeg hn = true)
    (hsegs : ∀ seg ∈ (urlSegments url).drop 1,
      cleanSeg (sanitizeSegment seg) = true)
    (hres : (toString width ++ "x" ++ toString height).data.contains '/'
      = false) :
    screenshotFilename rootDir url (toString width ++ "x" ++ toString height)
      = specOutputPath rootDir url width height := by
  unfold screenshotFilename pageDirectory specOutputPath
  have hflt : ((splitOnChar '/' url.data).map (fun l => String.mk l)).filter
      (fun s => ¬(s = "" ∨ s = "https:")) = urlSegments url := by
    rw [urlSegments]
    exact (List.filter_congr (fun s _ => segKeep_eq s)).symm
  rw [hflt]
  cases hseg2 : urlSegments url with
  | nil => rfl
  | cons hostname restSegs =>
    rw [hseg2] at hhost hsegs
    have hhost2 : cleanSeg hostname = true := hhost hostname (by simp)
    have hsegs2 : ∀ seg ∈ restSegs, cleanSeg (sanitizeSegment seg) = true :=
      fun seg hs => hsegs seg hs
    have hcleanlist : ∀ s ∈ "images" :: hostname ::
        restSegs.map sanitizeSegment, cleanSeg s = true := by
      intro s hs
      rcases List.mem_cons.mp hs with h1 | hs2
      · subst h1; decide
      rcases List.mem_cons.mp hs2 with h2 | hs3
      · subst h2; exact hhost2
      · obtain ⟨seg, hsm, rfl⟩ := List.mem_map.mp hs3
        exact hsegs2 seg hsm
    have hdirclean : cleanAbsDir (pathJoin (rootDir :: "images" :: hostname ::
        restSegs.map sanitizeSegment)) = true :=
      cleanAbsDir_pathJoin_cons rootDir _ hroot hcleanlist
    have hpng : cleanSeg ((toString width ++ "x" ++ toString height) ++
        ".png") = true := cleanSeg_append_png _ hres
    show some (pathJoin [pathJoin (rootDir :: "images" :: hostname ::
        restSegs.map sanitizeSegment),
        (toString width ++ "x" ++ toString height) ++ ".png"]) = some _
    congr 1
    rw [pathJoin_cons_clean _
      [(toString width ++ "x" ++ toString height) ++ ".png"] hdirclean
      (fun s hs => by
        rcases List.mem_cons.mp hs with h1 | h2
        · subst h1; exact hpng
        · simp at h2)]
    rw [joinSegs_cons_cons, joinSegs_singleton]
    rw [pathJoin_cons_clean rootDir _ hroot hcleanlist]
    rw [intercalate_eq_joinSegs]
    have hmap : restSegs.map (fun seg => String.mk (seg.data.filter (fun c =>
        ¬(c ∈ ['<', '>', ':', '"', '/', '\\', '|', '?', '*'] ∨
          c.toNat ≤ 0x1F)))) = restSegs.map sanitizeSegment :=
      (List.map_congr_left (fun seg _ => sanitizeSegment_eq_spec seg)).symm
    rw [hmap]
    show joinSegs (rootDir :: "images" :: hostname ::
        restSegs.map sanitizeSegment) ++ "/" ++
        ((toString width ++ "x" ++ toString height) ++ ".png") =
      joinSegs (rootDir :: "images" :: hostname ::
        restSegs.map sanitizeSegment) ++ "/" ++ toString width ++ "x" ++
        toString height ++ ".png"
    simp [String.append_assoc]

theorem output_path_matches_spec_on_clean_segments_witness :
    screenshotFilename "/root" "https://example.com/a b/c?d" "800x600" =
      specOutputPath "/root" "https://example.com/a b/c?d" 800 600 :=
  output_path_matches_spec_on_clean_segments "/root"
    "https://example.com/a b/c?d" 800 600 (by decide) (by decide) (by decide)
    (by decide)
